import Mathlib

/-!
Verification of the Sraffa engine's numeric core (`src/utils/math.ts`) and of
the aggregate/cost-breakdown computations of `src/App.tsx`.

Numbers are modelled by exact rationals `ℚ` for the linear-algebra pipeline and
by exact reals `ℝ` for the eigenvalue estimator (whose initial vector `1/√n` is
irrational).  An `n×n` matrix is a function `ℕ → ℕ → ℚ` together with its size
`n`; only indices `< n` are meaningful, matching the dense JS arrays.  The one
place where JavaScript produces a non-finite number (an unguarded division by a
total output that may be zero, in `getCostBreakdown` of App.tsx) is modelled by
`Option`: `none` stands for the JS `Infinity`/`NaN` result.
-/

namespace Sraffa

/-- Singularity tolerance `1e-10` of `solveLinearSystem`. -/
def tol : ℚ := 1 / 10 ^ 10

/-- JavaScript `Math.abs` on exact rationals. -/
def jsAbs (x : ℚ) : ℚ := if x < 0 then -x else x

/-- JavaScript division, tracking finiteness: dividing by `0` yields `Infinity`
or `NaN`, modelled `none`; every other division is exact. -/
def jsDiv (a b : ℚ) : Option ℚ := if b = 0 then none else some (a / b)

/-- Partial-pivot row selection of `solveLinearSystem`: starting from
`maxRow = i`, scan `k = i+1 .. n-1` and update `maxRow` whenever
`|aug[k][i]| > |aug[maxRow][i]|` (strict, so the least row attaining the
maximum wins). -/
def pivotRow (aug : ℕ → ℕ → ℚ) (i n : ℕ) : ℕ :=
  (List.range' (i + 1) (n - (i + 1))).foldl
    (fun m k => if jsAbs (aug k i) > jsAbs (aug m i) then k else m) i

/-- Row swap `[aug[i], aug[maxRow]] = [aug[maxRow], aug[i]]`. -/
def swapRows (aug : ℕ → ℕ → ℚ) (a b : ℕ) : ℕ → ℕ → ℚ :=
  fun r c => if r = a then aug b c else if r = b then aug a c else aug r c

/-- Elimination below pivot `i`: for every row `k` with `i < k < n` and every
column `i ≤ j ≤ n`, `aug[k][j] -= (aug[k][i]/aug[i][i]) * aug[i][j]` (the
factor `aug[k][i]/aug[i][i]` is read before row `k` is modified). -/
def elimBelow (n : ℕ) (aug : ℕ → ℕ → ℚ) (i : ℕ) : ℕ → ℕ → ℚ :=
  fun k j =>
    if i < k ∧ k < n ∧ i ≤ j ∧ j ≤ n then
      aug k j - aug k i / aug i i * aug i j
    else aug k j

/-- One step of forward elimination: pivot search, row swap, singularity check
(`Math.abs(aug[i][i]) < 1e-10` yields `none`, the JS `return null`), then
elimination below the pivot. -/
def gaussStep (n : ℕ) (aug : ℕ → ℕ → ℚ) (i : ℕ) : Option (ℕ → ℕ → ℚ) :=
  if jsAbs (swapRows aug i (pivotRow aug i n) i i) < tol then none
  else some (elimBelow n (swapRows aug i (pivotRow aug i n)) i)

/-- The first `i` iterations of the forward-elimination loop
`for (let i = 0; i < n; i++)`, i.e. steps `0, …, i-1` in order. -/
def elimUpTo (n : ℕ) (aug0 : ℕ → ℕ → ℚ) : ℕ → Option (ℕ → ℕ → ℚ)
  | 0 => some aug0
  | i + 1 => (elimUpTo n aug0 i).bind (fun aug => gaussStep n aug i)

/-- The full forward-elimination loop: all `n` steps. -/
def forwardElim (n : ℕ) (aug : ℕ → ℕ → ℚ) : Option (ℕ → ℕ → ℚ) :=
  elimUpTo n aug n

/-- `dotIdx f j [x_j, x_{j+1}, …] = Σ_k f k * x_k`, indices starting at `j`. -/
def dotIdx (f : ℕ → ℚ) : ℕ → List ℚ → ℚ
  | _, [] => 0
  | j, x :: xs => f j * x + dotIdx f (j + 1) xs

/-- Back substitution, from row `n-1` down to `0`:
`backSubAux n aug k = [x_{n-k}, …, x_{n-1}]` where
`x[i] = (aug[i][n] - Σ_{j=i+1}^{n-1} aug[i][j]·x[j]) / aug[i][i]`. -/
def backSubAux (n : ℕ) (aug : ℕ → ℕ → ℚ) : ℕ → List ℚ
  | 0 => []
  | k + 1 =>
    let i := n - (k + 1)
    let xs := backSubAux n aug k
    (aug i n - dotIdx (aug i) (i + 1) xs) / aug i i :: xs

/-- The augmented matrix `[A | b]` built by `b.map((val, i) => [...M[i], val])`. -/
def augOf (n : ℕ) (A : ℕ → ℕ → ℚ) (b : ℕ → ℚ) : ℕ → ℕ → ℚ :=
  fun i j => if j = n then b i else A i j

/-- `solveLinearSystem` (src/utils/math.ts lines 5–46): Gaussian elimination
with partial pivoting on the augmented matrix `[A | b]`, then back
substitution; `none` is the JS `null`. -/
def solveLinearSystem (n : ℕ) (A : ℕ → ℕ → ℚ) (b : ℕ → ℚ) : Option (List ℚ) :=
  (forwardElim n (augOf n A b)).map (fun aug' => backSubAux n aug' n)

/-! ## The economic model (src/utils/math.ts lines 128–192) -/

/-- Coefficient matrix `A_ij = Q_ij / X_j`, with `X_j === 0 ? 0 : Q_ij / X_j`
(step 1 of `calculateSraffianPrices`). -/
def coeffA (M : ℕ → ℕ → ℚ) (X : ℕ → ℚ) : ℕ → ℕ → ℚ :=
  fun i j => if X j = 0 then 0 else M i j / X j

/-- Unit labor `l_j = (L_j / X_j) * w`, with `X_j === 0 ? 0 : (L_j / X_j) * w`
(step 2 of `calculateSraffianPrices`). -/
def laborVec (L X : ℕ → ℚ) (w : ℚ) : ℕ → ℚ :=
  fun j => if X j = 0 then 0 else L j / X j * w

/-- The system matrix of `[I - (1+r)A]P = l` (step 3 of
`calculateSraffianPrices`): with `Multiplier = 1 + r` and
`a_input_into_row = A[col][row]`, the entry is `1 - Multiplier * a` on the
diagonal and `-Multiplier * a` off it. -/
def systemMatrix (M : ℕ → ℕ → ℚ) (X : ℕ → ℚ) (r : ℚ) : ℕ → ℕ → ℚ :=
  fun row col =>
    if row = col then 1 - (1 + r) * coeffA M X col row
    else -((1 + r) * coeffA M X col row)

/-- `calculateSraffianPrices` (src/utils/math.ts lines 128–192): solve
`S·P = l`; on `null` return `([], false)`; otherwise return the solver's
vector with `isValid = prices.every(p => p > -1e-6)`.  (A JS empty array is
truthy, so a returned `[]` passes the `!prices` test and is kept.) -/
def calculateSraffianPrices (n : ℕ) (M : ℕ → ℕ → ℚ) (L X : ℕ → ℚ) (r w : ℚ) :
    List ℚ × Bool :=
  match solveLinearSystem n (systemMatrix M X r) (laborVec L X w) with
  | none => ([], false)
  | some prices => (prices, prices.all fun p => -(1 / 10 ^ 6) < p)

/-! ## App.tsx: aggregates and the per-commodity cost breakdown -/

/-- Result record of the `aggregates` memo of App.tsx. -/
structure Aggregates where
  totalWages : ℚ
  totalProfits : ℚ
  netProduct : ℚ
  totalCapital : ℚ
  wageShare : ℚ
  profitShare : ℚ
  deriving DecidableEq, Repr

/-- The `aggregates` memo (src/App.tsx lines 45–89): `null` when the price
vector is empty; otherwise national totals, with the share denominator
`netProduct === 0 ? 1 : netProduct`.  (`totalGrossOutput` is computed by the
source and never returned; it is kept here, unused, for fidelity.) -/
def aggregates (n : ℕ) (M : ℕ → ℕ → ℚ) (L X : ℕ → ℚ) (prices : List ℚ)
    (r w : ℚ) : Option Aggregates :=
  if prices.length = 0 then none
  else
    let totalWages := ∑ idx ∈ Finset.range n, w * L idx
    let totalGrossOutput := ∑ idx ∈ Finset.range n, prices.getD idx 0 * X idx
    let totalCapital :=
      ∑ j ∈ Finset.range n, ∑ i ∈ Finset.range n, prices.getD i 0 * M i j
    let totalProfits := totalCapital * r
    let netProduct := totalWages + totalProfits
    let denom := if netProduct = 0 then 1 else netProduct
    some
      { totalWages := totalWages
        totalProfits := totalProfits
        netProduct := netProduct
        totalCapital := totalCapital
        wageShare := totalWages / denom * 100
        profitShare := totalProfits / denom * 100 }

/-- Result record of `getCostBreakdown` of App.tsx.  `wageCost` is an `Option`
because its division `laborInput / totalOutput` is not guarded: JavaScript
yields `Infinity`/`NaN` (here `none`) when the total output is zero. -/
structure CostBreakdown where
  constantCapitalValue : ℚ
  profit : ℚ
  wageCost : Option ℚ
  price : ℚ
  deriving DecidableEq, Repr

/-- `getCostBreakdown` (src/App.tsx lines 137–153): `null` when the price
vector is empty; `a_ij = output > 0 ? inputAmount / output : 0` (note the
`> 0` guard, unlike the `=== 0` test of math.ts); the wage cost divides by
`totalOutput` with no guard at all. -/
def getCostBreakdown (n : ℕ) (M : ℕ → ℕ → ℚ) (L X : ℕ → ℚ) (prices : List ℚ)
    (r w : ℚ) (idx : ℕ) : Option CostBreakdown :=
  if prices.length = 0 then none
  else
    let constantCapitalValue :=
      ∑ i ∈ Finset.range n,
        prices.getD i 0 * (if 0 < X idx then M i idx / X idx else 0)
    some
      { constantCapitalValue := constantCapitalValue
        profit := constantCapitalValue * r
        wageCost := (jsDiv (L idx) (X idx)).map (· * w)
        price := prices.getD idx 0 }

/-! ## The eigenvalue estimator (src/utils/math.ts lines 51–122), over `ℝ` -/

/-- `w = A * v` of the power iteration: `w[i] = Σ_j A[i][j] * v[j]`. -/
noncomputable def matVec (n : ℕ) (A : ℕ → ℕ → ℝ) (v : ℕ → ℝ) : ℕ → ℝ :=
  fun i => ∑ j ∈ Finset.range n, A i j * v j

/-- `norm² = Σ_i w[i] ** 2` accumulated by the normalization loop. -/
noncomputable def sumSq (n : ℕ) (w : ℕ → ℝ) : ℝ :=
  ∑ i ∈ Finset.range n, w i ^ 2

/-- One body of the `for (let iter = 0; iter < 1000; iter++)` loop of
`getDominantEigenvalue`: compute `w = A·v` and its norm; `norm < 1e-12` is the
early `return 0` (modelled `none`); otherwise `v[i] = w[i] / norm`. -/
noncomputable def powerStep (n : ℕ) (A : ℕ → ℕ → ℝ) (v : ℕ → ℝ) :
    Option (ℕ → ℝ) :=
  let w := matVec n A v
  let norm := Real.sqrt (sumSq n w)
  if norm < 1 / 10 ^ 12 then none else some (fun i => w i / norm)

/-- `k` successive bodies of the power-iteration loop. -/
noncomputable def powerIterate (n : ℕ) (A : ℕ → ℕ → ℝ) :
    ℕ → (ℕ → ℝ) → Option (ℕ → ℝ)
  | 0, v => some v
  | k + 1, v => (powerStep n A v).bind (powerIterate n A k)

/-- Rayleigh quotient `Σ_i v[i] * (A·v)[i]` computed after the loop (the
denominator `vᵗ·v` is omitted since `v` is unit-norm). -/
noncomputable def rayleigh (n : ℕ) (A : ℕ → ℕ → ℝ) (v : ℕ → ℝ) : ℝ :=
  ∑ i ∈ Finset.range n, v i * matVec n A v i

/-- `getDominantEigenvalue` (src/utils/math.ts lines 51–93): `0` for `n = 0`;
otherwise start from the vector with every entry `1.0 / Math.sqrt(n)`, run
exactly `1000` loop bodies (an early exit returns `0`), then return the
Rayleigh quotient. -/
noncomputable def getDominantEigenvalue (n : ℕ) (A : ℕ → ℕ → ℝ) : ℝ :=
  if n = 0 then 0
  else
    match powerIterate n A 1000 (fun _ => 1 / Real.sqrt n) with
    | none => 0
    | some v => rayleigh n A v

/-- `calculateMaxProfitRate` (src/utils/math.ts lines 99–122): build the
coefficient matrix (the `X_j === 0 ? 0 : Q_ij / X_j` loop duplicated from
`calculateSraffianPrices`), take `lambda = getDominantEigenvalue(A)`, and
return the capped `100.0` if `lambda <= 1e-9`, else `1.0 / lambda - 1.0`. -/
noncomputable def calculateMaxProfitRate (n : ℕ) (M : ℕ → ℕ → ℝ)
    (X : ℕ → ℝ) : ℝ :=
  let A : ℕ → ℕ → ℝ := fun i j => if X j = 0 then 0 else M i j / X j
  let lambda := getDominantEigenvalue n A
  if lambda ≤ 1 / 10 ^ 9 then 100 else 1 / lambda - 1

/-! ## Spec-side restatement of the eigenvalue algorithm (spec.md §4.2)

Written from the spec's words, over `Matrix (Fin n) (Fin n) ℝ` and
`EuclideanSpace ℝ (Fin n)` (so "the Euclidean norm of w" is literally `‖w‖`),
to be compared with the source embedding `getDominantEigenvalue`. -/

/-- Modelled from the spec: one iteration of §4.2 — "compute w = A·v; compute
the Euclidean norm of w; if the norm is below 1e-12 … return 0 immediately as
a terminal result; otherwise set v = w / norm and continue". -/
noncomputable def specEigenStep {n : ℕ} (A : Matrix (Fin n) (Fin n) ℝ)
    (v : EuclideanSpace ℝ (Fin n)) : Option (EuclideanSpace ℝ (Fin n)) :=
  let w : EuclideanSpace ℝ (Fin n) := A.mulVec v
  if ‖w‖ < 1 / 10 ^ 12 then none else some ((‖w‖)⁻¹ • w)

/-- Modelled from the spec: "Repeat exactly 1000 iterations", as `k` chained
iterations with a terminal early exit. -/
noncomputable def specEigenIterate {n : ℕ} (A : Matrix (Fin n) (Fin n) ℝ) :
    ℕ → EuclideanSpace ℝ (Fin n) → Option (EuclideanSpace ℝ (Fin n))
  | 0, v => some v
  | k + 1, v => (specEigenStep A v).bind (specEigenIterate A k)

/-- Modelled from the spec (§4.2 `dominantEigenvalue`): for `n = 0` return 0;
initialize every entry to `1/√n`; after the fixed budget of 1000 iterations
return the Rayleigh quotient `λ = vᵗ·A·v` with no denominator. -/
noncomputable def dominantEigenvalueSpec (n : ℕ)
    (A : Matrix (Fin n) (Fin n) ℝ) : ℝ :=
  if n = 0 then 0
  else
    match specEigenIterate A 1000 (fun _ => 1 / Real.sqrt n) with
    | none => 0
    | some v => Matrix.dotProduct v (A.mulVec v)

/-! ## Gaussian-elimination correctness -/

theorem jsAbs_eq_abs (x : ℚ) : jsAbs x = |x| := by
  unfold jsAbs
  rcases lt_or_le x 0 with h | h
  · rw [if_pos h, abs_of_neg h]
  · rw [if_neg (not_lt.mpr h), abs_of_nonneg h]

theorem tol_pos : 0 < tol := by norm_num [tol]

theorem ne_zero_of_not_jsAbs_lt_tol {x : ℚ} (h : ¬ jsAbs x < tol) : x ≠ 0 := by
  intro hx
  exact h (by simp [hx, jsAbs_eq_abs, tol_pos])

/-- The `maxRow` fold stays inside the scanned index set. -/
theorem foldl_pivot_bound (aug : ℕ → ℕ → ℚ) (i n : ℕ) (l : List ℕ) :
    ∀ a, i ≤ a → a < n → (∀ x ∈ l, i ≤ x ∧ x < n) →
    i ≤ l.foldl (fun m k => if jsAbs (aug k i) > jsAbs (aug m i) then k else m) a ∧
    l.foldl (fun m k => if jsAbs (aug k i) > jsAbs (aug m i) then k else m) a < n := by
  induction l with
  | nil => intro a ha1 ha2 _; exact ⟨ha1, ha2⟩
  | cons x xs ih =>
    intro a ha1 ha2 hl
    have hx := hl x (List.mem_cons_self x xs)
    have hxs : ∀ y ∈ xs, i ≤ y ∧ y < n := fun y hy => hl y (List.mem_cons_of_mem x hy)
    simp only [List.foldl_cons]
    by_cases hc : jsAbs (aug x i) > jsAbs (aug a i)
    · rw [if_pos hc]; exact ih x hx.1 hx.2 hxs
    · rw [if_neg hc]; exact ih a ha1 ha2 hxs

theorem pivotRow_ge (aug : ℕ → ℕ → ℚ) (i n : ℕ) (h : i < n) :
    i ≤ pivotRow aug i n := by
  refine (foldl_pivot_bound aug i n _ i le_rfl h ?_).1
  intro x hx
  rw [List.mem_range'_1] at hx
  omega

theorem pivotRow_lt (aug : ℕ → ℕ → ℚ) (i n : ℕ) (h : i < n) :
    pivotRow aug i n < n := by
  refine (foldl_pivot_bound aug i n _ i le_rfl h ?_).2
  intro x hx
  rw [List.mem_range'_1] at hx
  omega

/-- The swap permutation, written pointwise. -/
theorem swapRows_apply (aug : ℕ → ℕ → ℚ) (a b r c : ℕ) :
    swapRows aug a b r c = aug (if r = a then b else if r = b then a else r) c := by
  unfold swapRows
  by_cases h1 : r = a
  · simp [h1]
  · by_cases h2 : r = b
    · by_cases h3 : b = a <;> simp [h1, h2, h3]
    · simp [h1, h2]

/-- A row equation holds for the augmented matrix. -/
def rowSat (n : ℕ) (aug : ℕ → ℕ → ℚ) (x : ℕ → ℚ) (i : ℕ) : Prop :=
  ∑ j ∈ Finset.range n, aug i j * x j = aug i n

/-- `x` satisfies every row equation of the `n × (n+1)` augmented system. -/
def sat (n : ℕ) (aug : ℕ → ℕ → ℚ) (x : ℕ → ℚ) : Prop :=
  ∀ i, i < n → rowSat n aug x i

/-- Columns `< i` are zero below the diagonal (the elimination invariant
after steps `0 … i-1`). -/
def lowerZero (n : ℕ) (aug : ℕ → ℕ → ℚ) (i : ℕ) : Prop :=
  ∀ k j, k < n → j < i → j < k → aug k j = 0

theorem swapRows_lowerZero {n : ℕ} {aug : ℕ → ℕ → ℚ} {i : ℕ}
    (h : lowerZero n aug i) {a b : ℕ} (ha : i ≤ a) (hb : i ≤ b)
    (han : a < n) (hbn : b < n) : lowerZero n (swapRows aug a b) i := by
  intro k j hk hj hjk
  rw [swapRows_apply]
  by_cases h1 : k = a
  · rw [if_pos h1]
    exact h b j hbn hj (by omega)
  · rw [if_neg h1]
    by_cases h2 : k = b
    · rw [if_pos h2]
      exact h a j han hj (by omega)
    · rw [if_neg h2]
      exact h k j hk hj hjk

theorem gaussStep_eq_some_iff {n : ℕ} {aug : ℕ → ℕ → ℚ} {i : ℕ}
    {aug' : ℕ → ℕ → ℚ} :
    gaussStep n aug i = some aug' ↔
      ¬ jsAbs (swapRows aug i (pivotRow aug i n) i i) < tol ∧
      aug' = elimBelow n (swapRows aug i (pivotRow aug i n)) i := by
  unfold gaussStep
  split_ifs with h
  · simp [h]
  · simp only [h, Option.some.injEq, not_false_iff, true_and]
    exact ⟨fun he => he.symm, fun he => he.symm⟩

theorem gaussStep_eq_none_iff {n : ℕ} {aug : ℕ → ℕ → ℚ} {i : ℕ} :
    gaussStep n aug i = none ↔ jsAbs (aug (pivotRow aug i n) i) < tol := by
  unfold gaussStep
  have hswap : swapRows aug i (pivotRow aug i n) i i = aug (pivotRow aug i n) i := by
    rw [swapRows_apply, if_pos rfl]
  rw [hswap]
  split_ifs with h <;> simp [h]

theorem gaussStep_row_lt {n : ℕ} {aug aug' : ℕ → ℕ → ℚ} {i : ℕ}
    (hin : i < n) (h : gaussStep n aug i = some aug')
    {r : ℕ} (hr : r < i) (c : ℕ) : aug' r c = aug r c := by
  obtain ⟨-, rfl⟩ := gaussStep_eq_some_iff.mp h
  unfold elimBelow
  rw [if_neg (by omega)]
  rw [swapRows_apply, if_neg (by omega), if_neg ?_]
  have := pivotRow_ge aug i n hin
  omega

theorem gaussStep_diag {n : ℕ} {aug aug' : ℕ → ℕ → ℚ} {i : ℕ}
    (h : gaussStep n aug i = some aug') : ¬ jsAbs (aug' i i) < tol := by
  obtain ⟨hg, rfl⟩ := gaussStep_eq_some_iff.mp h
  unfold elimBelow
  rw [if_neg (by omega)]
  exact hg

theorem gaussStep_lowerZero {n : ℕ} {aug aug' : ℕ → ℕ → ℚ} {i : ℕ}
    (hin : i < n) (hlz : lowerZero n aug i)
    (h : gaussStep n aug i = some aug') : lowerZero n aug' (i + 1) := by
  obtain ⟨hg, rfl⟩ := gaussStep_eq_some_iff.mp h
  have hlz1 : lowerZero n (swapRows aug i (pivotRow aug i n)) i :=
    swapRows_lowerZero hlz le_rfl (pivotRow_ge aug i n hin) hin
      (pivotRow_lt aug i n hin)
  set aug1 := swapRows aug i (pivotRow aug i n) with haug1
  have hpiv : aug1 i i ≠ 0 := ne_zero_of_not_jsAbs_lt_tol hg
  intro k j hk hj hjk
  unfold elimBelow
  by_cases hji : j < i
  · rw [if_neg (by omega)]
    exact hlz1 k j hk hji hjk
  · have hij : j = i := by omega
    subst hij
    rw [if_pos (show j < k ∧ k < n ∧ j ≤ j ∧ j ≤ n by omega)]
    rw [div_mul_cancel₀ _ hpiv, sub_self]

/-- A row swap inside the square block permutes the equations, so any solution
of the swapped system solves the original one. -/
theorem swapRows_sat {n : ℕ} {aug : ℕ → ℕ → ℚ} {a b : ℕ}
    (han : a < n) (hbn : b < n) {x : ℕ → ℚ}
    (hs : sat n (swapRows aug a b) x) : sat n aug x := by
  intro k hk
  have hσ : ∀ r, r < n → ∀ c, swapRows aug a b r c =
      aug (if r = a then b else if r = b then a else r) c :=
    fun r _ c => swapRows_apply aug a b r c
  by_cases h1 : k = a
  · have := hs b hbn
    unfold rowSat at this ⊢
    subst h1
    by_cases h2 : b = k
    · subst h2
      simpa [swapRows_apply] using this
    · simpa [swapRows_apply, h2] using this
  · by_cases h2 : k = b
    · have := hs a han
      unfold rowSat at this ⊢
      subst h2
      simpa [swapRows_apply, h1] using this
    · have := hs k hk
      unfold rowSat at this ⊢
      simpa [swapRows_apply, h1, h2] using this

/-- Elimination below pivot `i` replaces rows by linear combinations, so any
solution of the reduced system solves the pre-elimination one; row `i` must
have zeros left of the pivot. -/
theorem elimBelow_sat {n : ℕ} {aug1 : ℕ → ℕ → ℚ} {i : ℕ} (hin : i < n)
    (hi0 : ∀ j, j < i → aug1 i j = 0) {x : ℕ → ℚ}
    (hs : sat n (elimBelow n aug1 i) x) : sat n aug1 x := by
  have hrow_le : ∀ k, ¬ i < k → ∀ j, elimBelow n aug1 i k j = aug1 k j := by
    intro k hik j
    unfold elimBelow
    rw [if_neg (by tauto)]
  have hEi : ∑ j ∈ Finset.range n, aug1 i j * x j = aug1 i n := by
    have := hs i hin
    unfold rowSat at this
    simpa [hrow_le i (lt_irrefl i)] using this
  have hIco : ∑ j ∈ Finset.Ico i n, aug1 i j * x j = aug1 i n := by
    rw [← Finset.sum_range_add_sum_Ico _ (le_of_lt hin)] at hEi
    have hz : ∑ j ∈ Finset.range i, aug1 i j * x j = 0 :=
      Finset.sum_eq_zero fun j hj => by
        rw [hi0 j (Finset.mem_range.mp hj), zero_mul]
    linarith
  intro k hk
  by_cases hik : i < k
  · have hEk := hs k hk
    unfold rowSat at hEk ⊢
    have hkn : elimBelow n aug1 i k n =
        aug1 k n - aug1 k i / aug1 i i * aug1 i n := by
      unfold elimBelow
      rw [if_pos (show i < k ∧ k < n ∧ i ≤ n ∧ n ≤ n by omega)]
    have hsplit : ∑ j ∈ Finset.range n, elimBelow n aug1 i k j * x j =
        ∑ j ∈ Finset.range n, aug1 k j * x j -
          aug1 k i / aug1 i i * ∑ j ∈ Finset.Ico i n, aug1 i j * x j := by
      rw [← Finset.sum_range_add_sum_Ico _ (le_of_lt hin),
        ← Finset.sum_range_add_sum_Ico (fun j => aug1 k j * x j) (le_of_lt hin)]
      have h1 : ∑ j ∈ Finset.range i, elimBelow n aug1 i k j * x j =
          ∑ j ∈ Finset.range i, aug1 k j * x j := by
        refine Finset.sum_congr rfl fun j hj => ?_
        have hji := Finset.mem_range.mp hj
        unfold elimBelow
        rw [if_neg (by omega)]
      have h2 : ∑ j ∈ Finset.Ico i n, elimBelow n aug1 i k j * x j =
          ∑ j ∈ Finset.Ico i n, aug1 k j * x j -
            aug1 k i / aug1 i i * ∑ j ∈ Finset.Ico i n, aug1 i j * x j := by
        rw [Finset.mul_sum, ← Finset.sum_sub_distrib]
        refine Finset.sum_congr rfl fun j hj => ?_
        have hji := Finset.mem_Ico.mp hj
        unfold elimBelow
        rw [if_pos (show i < k ∧ k < n ∧ i ≤ j ∧ j ≤ n by omega)]
        ring
      rw [h1, h2]
      ring
    rw [hsplit, hkn, hIco] at hEk
    linarith
  · have hEk := hs k hk
    unfold rowSat at hEk ⊢
    simpa [hrow_le k hik] using hEk

/-- Any solution of the system after one elimination step solves the system
before it. -/
theorem gaussStep_sat {n : ℕ} {aug aug' : ℕ → ℕ → ℚ} {i : ℕ}
    (hin : i < n) (hlz : lowerZero n aug i)
    (h : gaussStep n aug i = some aug') :
    ∀ x, sat n aug' x → sat n aug x := by
  obtain ⟨hg, rfl⟩ := gaussStep_eq_some_iff.mp h
  have hlz1 : lowerZero n (swapRows aug i (pivotRow aug i n)) i :=
    swapRows_lowerZero hlz le_rfl (pivotRow_ge aug i n hin) hin
      (pivotRow_lt aug i n hin)
  intro x hs
  have hi0 : ∀ j, j < i → swapRows aug i (pivotRow aug i n) i j = 0 :=
    fun j hj => hlz1 i j hin hj hj
  exact swapRows_sat hin (pivotRow_lt aug i n hin)
    (elimBelow_sat hin hi0 hs)

/-- Combined invariants of partial forward elimination: lower-triangle zeros,
healthy pivots on the processed diagonal, and solution preservation. -/
theorem elimUpTo_props {n : ℕ} {aug0 : ℕ → ℕ → ℚ} :
    ∀ i, i ≤ n → ∀ aug', elimUpTo n aug0 i = some aug' →
      lowerZero n aug' i ∧ (∀ r, r < i → ¬ jsAbs (aug' r r) < tol) ∧
      (∀ x, sat n aug' x → sat n aug0 x) := by
  intro i
  induction i with
  | zero =>
    intro _ aug' h
    obtain rfl : aug0 = aug' := by simpa [elimUpTo] using h
    exact ⟨fun k j _ hj _ => absurd hj (Nat.not_lt_zero j),
      fun r hr => absurd hr (Nat.not_lt_zero r), fun x hx => hx⟩
  | succ i ih =>
    intro hi aug' h
    have hin : i < n := hi
    obtain ⟨mid, hmid, hstep⟩ : ∃ mid, elimUpTo n aug0 i = some mid ∧
        gaussStep n mid i = some aug' := by
      unfold elimUpTo at h
      cases hm : elimUpTo n aug0 i with
      | none => rw [hm] at h; simp at h
      | some mid => rw [hm] at h; exact ⟨mid, rfl, by simpa using h⟩
    obtain ⟨hlz, hdiag, hsat⟩ := ih (le_of_lt hin) mid hmid
    refine ⟨gaussStep_lowerZero hin hlz hstep, ?_, ?_⟩
    · intro r hr
      by_cases hri : r < i
      · rw [show aug' r r = mid r r from gaussStep_row_lt hin hstep hri r]
        exact hdiag r hri
      · have : r = i := by omega
        subst this
        exact gaussStep_diag hstep
    · intro x hx
      exact hsat x (gaussStep_sat hin hlz hstep x hx)

/-! ### Back substitution -/

theorem backSubAux_length (n : ℕ) (aug : ℕ → ℕ → ℚ) :
    ∀ k, (backSubAux n aug k).length = k := by
  intro k
  induction k with
  | zero => rfl
  | succ k ih => simp [backSubAux, ih]

theorem backSubAux_drop (n : ℕ) (aug : ℕ → ℕ → ℚ) :
    ∀ d k, d ≤ k → (backSubAux n aug k).drop d = backSubAux n aug (k - d) := by
  intro d
  induction d with
  | zero => intro k _; simp
  | succ d ih =>
    intro k hk
    obtain ⟨k', rfl⟩ : ∃ k', k = k' + 1 := ⟨k - 1, by omega⟩
    have : backSubAux n aug (k' + 1) =
        (aug (n - (k' + 1)) n - dotIdx (aug (n - (k' + 1))) (n - (k' + 1) + 1)
          (backSubAux n aug k')) / aug (n - (k' + 1)) (n - (k' + 1)) ::
          backSubAux n aug k' := rfl
    rw [this, List.drop_succ_cons, ih k' (by omega)]
    congr 1
    omega

theorem backSubAux_getD (n : ℕ) (aug : ℕ → ℕ → ℚ) {i : ℕ} (hi : i < n) :
    (backSubAux n aug n).getD i 0 =
      (aug i n - dotIdx (aug i) (i + 1) (backSubAux n aug (n - (i + 1)))) /
        aug i i := by
  have hdrop : (backSubAux n aug n).drop i = backSubAux n aug (n - i) :=
    backSubAux_drop n aug i n (le_of_lt hi)
  have hni : n - i = (n - (i + 1)) + 1 := by omega
  have hcons : backSubAux n aug (n - i) =
      (aug i n - dotIdx (aug i) (i + 1) (backSubAux n aug (n - (i + 1)))) /
        aug i i :: backSubAux n aug (n - (i + 1)) := by
    rw [hni]
    have hidx : n - ((n - (i + 1)) + 1) = i := by omega
    show (aug (n - ((n - (i + 1)) + 1)) n -
        dotIdx (aug (n - ((n - (i + 1)) + 1))) ((n - ((n - (i + 1)) + 1)) + 1)
          (backSubAux n aug (n - (i + 1)))) /
        aug (n - ((n - (i + 1)) + 1)) (n - ((n - (i + 1)) + 1)) ::
        backSubAux n aug (n - (i + 1)) = _
    rw [hidx]
  have hget : (backSubAux n aug n).getD i 0 =
      ((backSubAux n aug n).drop i).getD 0 0 := by
    rcases hd : (backSubAux n aug n).drop i with - | ⟨y, ys⟩
    · have : (backSubAux n aug n).length ≤ i := by
        have := congrArg List.length hd
        simp only [List.length_drop, List.length_nil] at this
        omega
      rw [backSubAux_length] at this
      omega
    · have h0 : ((backSubAux n aug n).drop i).getD 0 0 = y := by
        rw [hd]; rfl
      have h1 : (backSubAux n aug n).getD i 0 = y := by
        have := List.getElem?_drop (backSubAux n aug n) i 0
        rw [hd] at this
        simp only [List.getElem?_cons_zero, Nat.add_zero] at this
        simp [List.getD, this.symm]
      rw [h1]
      rfl
  rw [hget, hdrop, hcons]
  rfl

theorem dotIdx_eq_sum (f : ℕ → ℚ) :
    ∀ ys : List ℚ, ∀ a, dotIdx f a ys =
      ∑ t ∈ Finset.range ys.length, f (a + t) * ys.getD t 0 := by
  intro ys
  induction ys with
  | nil => intro a; simp [dotIdx]
  | cons y ys ih =>
    intro a
    rw [show dotIdx f a (y :: ys) = f a * y + dotIdx f (a + 1) ys from rfl,
      ih (a + 1)]
    rw [List.length_cons, Finset.sum_range_succ']
    simp only [List.getD_cons_succ, List.getD_cons_zero, Nat.add_zero]
    have : ∀ t, a + 1 + t = a + (t + 1) := by omega
    simp only [this]
    ring

theorem getD_drop (l : List ℚ) (m t : ℕ) :
    (l.drop m).getD t 0 = l.getD (m + t) 0 := by
  have := List.getElem?_drop l m t
  simp [List.getD, this]

/-- The back-substituted vector satisfies row `i` of an upper-triangular
system with a nonzero pivot in row `i`. -/
theorem backSub_rowSat {n : ℕ} {aug : ℕ → ℕ → ℚ} {i : ℕ} (hi : i < n)
    (hpiv : aug i i ≠ 0) (hi0 : ∀ j, j < i → aug i j = 0) :
    rowSat n aug (fun j => (backSubAux n aug n).getD j 0) i := by
  unfold rowSat
  set x : ℕ → ℚ := fun j => (backSubAux n aug n).getD j 0 with hx
  set D := dotIdx (aug i) (i + 1) (backSubAux n aug (n - (i + 1))) with hD
  have hlow : ∑ j ∈ Finset.range i, aug i j * x j = 0 :=
    Finset.sum_eq_zero fun j hj => by
      rw [hi0 j (Finset.mem_range.mp hj), zero_mul]
  have htail : ∑ j ∈ Finset.Ico (i + 1) n, aug i j * x j = D := by
    rw [hD, dotIdx_eq_sum, backSubAux_length]
    rw [Finset.sum_Ico_eq_sum_range]
    refine Finset.sum_congr rfl fun t ht => ?_
    congr 1
    have hdrop : backSubAux n aug (n - (i + 1)) =
        (backSubAux n aug n).drop (i + 1) := by
      rw [backSubAux_drop n aug (i + 1) n (by omega)]
    show (backSubAux n aug n).getD (i + 1 + t) 0 =
      (backSubAux n aug (n - (i + 1))).getD t 0
    rw [hdrop, getD_drop]
  have hxi : aug i i * x i = aug i n - D := by
    rw [hx]
    show aug i i * (backSubAux n aug n).getD i 0 = aug i n - D
    rw [backSubAux_getD n aug hi, ← hD]
    field_simp
  calc ∑ j ∈ Finset.range n, aug i j * x j
      = ∑ j ∈ Finset.range i, aug i j * x j +
        ∑ j ∈ Finset.Ico i n, aug i j * x j := by
        rw [Finset.sum_range_add_sum_Ico _ (le_of_lt hi)]
    _ = aug i i * x i + ∑ j ∈ Finset.Ico (i + 1) n, aug i j * x j := by
        rw [hlow, Finset.sum_eq_sum_Ico_succ_bot hi]
        ring
    _ = aug i n := by rw [hxi, htail]; ring

/-- Whenever `solveLinearSystem` returns a vector, that vector satisfies every
equation of the input system exactly (in exact arithmetic). -/
theorem solveLinearSystem_exact {n : ℕ} {A : ℕ → ℕ → ℚ} {b : ℕ → ℚ}
    {xs : List ℚ} (h : solveLinearSystem n A b = some xs) :
    ∀ i, i < n → ∑ j ∈ Finset.range n, A i j * xs.getD j 0 = b i := by
  obtain ⟨aug', hfe, rfl⟩ : ∃ aug', forwardElim n (augOf n A b) = some aug' ∧
      xs = backSubAux n aug' n := by
    unfold solveLinearSystem at h
    cases hm : forwardElim n (augOf n A b) with
    | none => rw [hm] at h; simp at h
    | some aug' =>
      rw [hm] at h
      exact ⟨aug', rfl, by simpa using h.symm⟩
  obtain ⟨hlz, hdiag, hsat⟩ := elimUpTo_props n le_rfl aug' hfe
  have hsol : sat n aug' fun j => (backSubAux n aug' n).getD j 0 := by
    intro i hi
    refine backSub_rowSat hi (ne_zero_of_not_jsAbs_lt_tol (hdiag i hi)) ?_
    intro j hj
    exact hlz i j hi (by omega) hj
  have horig := hsat _ hsol
  intro i hi
  have := horig i hi
  unfold rowSat at this
  rw [show augOf n A b i n = b i from if_pos rfl] at this
  rw [← this]
  refine Finset.sum_congr rfl fun j hj => ?_
  have hjn := Finset.mem_range.mp hj
  rw [show augOf n A b i j = A i j from if_neg (by omega)]

/-! ### The elimination's control flow only reads the coefficient columns -/

/-- Two augmented matrices agree on the square block (all columns `< n`). -/
def colAgree (n : ℕ) (a c : ℕ → ℕ → ℚ) : Prop :=
  ∀ k j, k < n → j < n → a k j = c k j

theorem pivotRow_congr {n : ℕ} {a c : ℕ → ℕ → ℚ} {i : ℕ}
    (h : colAgree n a c) (hin : i < n) : pivotRow a i n = pivotRow c i n := by
  unfold pivotRow
  have hgen : ∀ l : List ℕ, (∀ x ∈ l, x < n) → ∀ m, m < n →
      l.foldl (fun m k => if jsAbs (a k i) > jsAbs (a m i) then k else m) m =
      l.foldl (fun m k => if jsAbs (c k i) > jsAbs (c m i) then k else m) m := by
    intro l
    induction l with
    | nil => intro _ m _; rfl
    | cons x xs ih =>
      intro hl m hm
      have hx : x < n := hl x (List.mem_cons_self x xs)
      have hxs : ∀ y ∈ xs, y < n := fun y hy => hl y (List.mem_cons_of_mem x hy)
      simp only [List.foldl_cons]
      rw [h x i hx hin, h m i hm hin]
      by_cases hc : jsAbs (c x i) > jsAbs (c m i)
      · rw [if_pos hc]
        exact ih hxs x hx
      · rw [if_neg hc]
        exact ih hxs m hm
  refine hgen _ ?_ i hin
  intro x hx
  rw [List.mem_range'_1] at hx
  omega

theorem swapRows_congr {n : ℕ} {a c : ℕ → ℕ → ℚ} {p q : ℕ}
    (h : colAgree n a c) (hp : p < n) (hq : q < n) :
    colAgree n (swapRows a p q) (swapRows c p q) := by
  intro k j hk hj
  rw [swapRows_apply, swapRows_apply]
  by_cases h1 : k = p
  · rw [if_pos h1]; exact h q j hq hj
  · rw [if_neg h1]
    by_cases h2 : k = q
    · rw [if_pos h2]; exact h p j hp hj
    · rw [if_neg h2]; exact h k j hk hj

theorem gaussStep_congr {n : ℕ} {a c : ℕ → ℕ → ℚ} {i : ℕ}
    (hin : i < n) (h : colAgree n a c) :
    (gaussStep n a i = none ∧ gaussStep n c i = none) ∨
    (∃ a' c', gaussStep n a i = some a' ∧ gaussStep n c i = some c' ∧
      colAgree n a' c') := by
  have hm : pivotRow a i n = pivotRow c i n := pivotRow_congr h hin
  have hmlt : pivotRow a i n < n := pivotRow_lt a i n hin
  have hswap : colAgree n (swapRows a i (pivotRow a i n))
      (swapRows c i (pivotRow c i n)) := by
    rw [← hm]
    exact swapRows_congr h hin hmlt
  have hguard : swapRows a i (pivotRow a i n) i i =
      swapRows c i (pivotRow c i n) i i := hswap i i hin hin
  unfold gaussStep
  rw [← hguard]
  by_cases hg : jsAbs (swapRows a i (pivotRow a i n) i i) < tol
  · left
    rw [if_pos hg, if_pos hg]
    exact ⟨rfl, rfl⟩
  · right
    refine ⟨_, _, (if_neg hg), (if_neg hg), ?_⟩
    intro k j hk hj
    unfold elimBelow
    by_cases hcond : i < k ∧ k < n ∧ i ≤ j ∧ j ≤ n
    · rw [if_pos hcond, if_pos hcond]
      have h1 := hswap k j hk hj
      have h2 := hswap k i hk hin
      have h3 := hswap i i hin hin
      have h4 := hswap i j hin hj
      rw [h1, h2, h3, h4]
    · rw [if_neg hcond, if_neg hcond]
      exact hswap k j hk hj

theorem elimUpTo_congr {n : ℕ} {a0 c0 : ℕ → ℕ → ℚ} (h : colAgree n a0 c0) :
    ∀ i, i ≤ n →
      (elimUpTo n a0 i = none ∧ elimUpTo n c0 i = none) ∨
      (∃ a' c', elimUpTo n a0 i = some a' ∧ elimUpTo n c0 i = some c' ∧
        colAgree n a' c') := by
  intro i
  induction i with
  | zero => intro _; exact Or.inr ⟨a0, c0, rfl, rfl, h⟩
  | succ i ih =>
    intro hi
    rcases ih (by omega) with ⟨ha, hc⟩ | ⟨a', c', ha, hc, hagree⟩
    · left
      constructor <;> simp [elimUpTo, ha, hc]
    · rcases gaussStep_congr (show i < n by omega) hagree with
        ⟨hsa, hsc⟩ | ⟨a'', c'', hsa, hsc, hagree'⟩
      · left
        constructor <;> simp [elimUpTo, ha, hc, hsa, hsc]
      · right
        exact ⟨a'', c'', by simp [elimUpTo, ha, hsa],
          by simp [elimUpTo, hc, hsc], hagree'⟩

/-- Forward elimination fails exactly when some step meets a sub-tolerance
pivot after partial-pivot selection. -/
theorem elimUpTo_eq_none_iff {n : ℕ} {aug0 : ℕ → ℕ → ℚ} :
    ∀ i, elimUpTo n aug0 i = none ↔
      ∃ k, k < i ∧ ∃ mid, elimUpTo n aug0 k = some mid ∧
        jsAbs (mid (pivotRow mid k n) k) < tol := by
  intro i
  induction i with
  | zero =>
    rw [show elimUpTo n aug0 0 = some aug0 from rfl]
    simp
  | succ i ih =>
    constructor
    · intro h
      unfold elimUpTo at h
      cases hm : elimUpTo n aug0 i with
      | none =>
        obtain ⟨k, hk, mid, hmid, hfail⟩ := ih.mp hm
        exact ⟨k, by omega, mid, hmid, hfail⟩
      | some mid =>
        rw [hm] at h
        rw [show (some mid).bind (fun aug => gaussStep n aug i) =
          gaussStep n mid i from rfl] at h
        exact ⟨i, by omega, mid, hm, gaussStep_eq_none_iff.mp h⟩
    · rintro ⟨k, hk, mid, hmid, hfail⟩
      by_cases hki : k < i
      · have : elimUpTo n aug0 i = none := ih.mpr ⟨k, hki, mid, hmid, hfail⟩
        simp [elimUpTo, this]
      · have hkeq : k = i := by omega
        subst hkeq
        simp [elimUpTo, hmid, gaussStep_eq_none_iff.mpr hfail]

theorem solveLinearSystem_eq_none_iff {n : ℕ} {A : ℕ → ℕ → ℚ} {b : ℕ → ℚ} :
    solveLinearSystem n A b = none ↔ forwardElim n (augOf n A b) = none := by
  unfold solveLinearSystem
  cases forwardElim n (augOf n A b) <;> simp

/-- A matrix with an all-zero row always drives elimination into the
singularity check: the solver returns `none` for every right-hand side. -/
theorem solve_zeroRow {n : ℕ} {A : ℕ → ℕ → ℚ} (b : ℕ → ℚ) {r : ℕ}
    (hr : r < n) (hz : ∀ j, j < n → A r j = 0) :
    solveLinearSystem n A b = none := by
  by_contra hne
  obtain ⟨aug', hfe⟩ : ∃ aug', forwardElim n (augOf n A b) = some aug' := by
    cases hm : forwardElim n (augOf n A b) with
    | none => exact absurd (solveLinearSystem_eq_none_iff.mpr hm) hne
    | some aug' => exact ⟨aug', rfl⟩
  set e : ℕ → ℚ := fun i => if i = r then 1 else 0 with he
  have hagree : colAgree n (augOf n A b) (augOf n A e) := by
    intro k j _ hj
    unfold augOf
    rw [if_neg (by omega), if_neg (by omega)]
  rcases elimUpTo_congr hagree n le_rfl with ⟨ha, -⟩ | ⟨a', c', -, hc, -⟩
  · rw [show forwardElim n (augOf n A b) = elimUpTo n (augOf n A b) n from rfl,
      ha] at hfe
    exact Option.noConfusion hfe
  · have hsolve : solveLinearSystem n A e = some (backSubAux n c' n) := by
      unfold solveLinearSystem forwardElim
      rw [show elimUpTo n (augOf n A e) n = some c' from hc]
      rfl
    have hexact := solveLinearSystem_exact hsolve r hr
    have hzero : ∑ j ∈ Finset.range n,
        A r j * (backSubAux n c' n).getD j 0 = 0 :=
      Finset.sum_eq_zero fun j hj => by
        rw [hz j (Finset.mem_range.mp hj), zero_mul]
    rw [hzero] at hexact
    have : e r = (1 : ℚ) := by rw [he]; simp
    rw [this] at hexact
    exact one_ne_zero hexact.symm

theorem solveLinearSystem_length {n : ℕ} {A : ℕ → ℕ → ℚ} {b : ℕ → ℚ}
    {xs : List ℚ} (h : solveLinearSystem n A b = some xs) : xs.length = n := by
  obtain ⟨aug', -, rfl⟩ : ∃ aug', forwardElim n (augOf n A b) = some aug' ∧
      xs = backSubAux n aug' n := by
    unfold solveLinearSystem at h
    cases hm : forwardElim n (augOf n A b) with
    | none => rw [hm] at h; simp at h
    | some aug' =>
      rw [hm] at h
      exact ⟨aug', rfl, by simpa using h.symm⟩
  exact backSubAux_length n aug' n

/-- A result flagged valid can only come from a successful solve. -/
theorem solver_of_valid {n : ℕ} {M : ℕ → ℕ → ℚ} {L X : ℕ → ℚ} {r w : ℚ}
    {P : List ℚ}
    (h : calculateSraffianPrices n M L X r w = (P, true)) :
    solveLinearSystem n (systemMatrix M X r) (laborVec L X w) = some P := by
  unfold calculateSraffianPrices at h
  cases hm : solveLinearSystem n (systemMatrix M X r) (laborVec L X w) with
  | none =>
    rw [hm] at h
    exact absurd (congrArg Prod.snd h) (by simp)
  | some P' =>
    rw [hm] at h
    rw [(Prod.mk.injEq _ _ _ _).mp h |>.1]

/-- The defining Sraffian price equation
`p_j = (1+r) * Σ_i p_i * A[i][j] + l_j`, recovered exactly from a successful
solve of the assembled system. -/
theorem price_equation {n : ℕ} {M : ℕ → ℕ → ℚ} {L X : ℕ → ℚ} {r w : ℚ}
    {P : List ℚ}
    (h : solveLinearSystem n (systemMatrix M X r) (laborVec L X w) = some P)
    {idx : ℕ} (hidx : idx < n) :
    P.getD idx 0 =
      (1 + r) * ∑ i ∈ Finset.range n, coeffA M X i idx * P.getD i 0 +
        laborVec L X w idx := by
  have hrow := solveLinearSystem_exact h idx hidx
  have hexpand : ∀ col, systemMatrix M X r idx col * P.getD col 0 =
      (if idx = col then P.getD col 0 else 0) -
        (1 + r) * (coeffA M X col idx * P.getD col 0) := by
    intro col
    unfold systemMatrix
    by_cases hc : idx = col
    · rw [if_pos hc, if_pos hc]; ring
    · rw [if_neg hc, if_neg hc]; ring
  rw [Finset.sum_congr rfl fun col _ => hexpand col] at hrow
  rw [Finset.sum_sub_distrib, ← Finset.mul_sum] at hrow
  rw [Finset.sum_ite_eq (Finset.range n) idx (fun col => P.getD col 0)] at hrow
  rw [if_pos (Finset.mem_range.mpr hidx)] at hrow
  linarith

/-- C1: the system matrix built by `calculateSraffianPrices` follows the
transposed-index convention `S[row][col] = (row==col ? 1 : 0) − (1+r)·A[col][row]`
with `A[i][j] = inputMatrix[i][j]/totalOutputs[j]` (`0` when the output is
zero).  The wage `w` plays no part in `S`. -/
theorem C1_system_matrix_form (n : ℕ) (M : ℕ → ℕ → ℚ) (X : ℕ → ℚ)
    (r w : ℚ) (row col : ℕ) (hrow : row < n) (hcol : col < n) :
    systemMatrix M X r row col =
      (if row = col then 1 else 0) -
        (1 + r) * (if X row = 0 then 0 else M col row / X row) := by
  unfold systemMatrix coeffA
  by_cases hc : row = col
  · rw [if_pos hc, if_pos hc]
  · rw [if_neg hc, if_neg hc]
    ring

theorem C1_system_matrix_form_witness :
    (0 : ℕ) < 1 ∧
    systemMatrix (fun _ _ => (2 : ℚ)) (fun _ => 1) 1 0 0 =
      (if (0 : ℕ) = 0 then 1 else 0) -
        (1 + 1) * (if (fun _ => (1 : ℚ)) 0 = 0 then 0
          else (fun _ _ => (2 : ℚ)) 0 0 / (fun _ => (1 : ℚ)) 0) :=
  ⟨Nat.zero_lt_one,
    C1_system_matrix_form 1 (fun _ _ => (2 : ℚ)) (fun _ => 1) 1 1 0 0
      Nat.zero_lt_one Nat.zero_lt_one⟩

/-- C3: `calculateSraffianPrices` yields `([], false)` exactly when the solver
reports no solution; otherwise it passes the solver's vector through
unchanged (even when flagged invalid), with `isValid` true iff every entry
exceeds `-1e-6`. -/
theorem C3_price_outcome (n : ℕ) (M : ℕ → ℕ → ℚ) (L X : ℕ → ℚ) (r w : ℚ) :
    (calculateSraffianPrices n M L X r w = ([], false) ↔
      solveLinearSystem n (systemMatrix M X r) (laborVec L X w) = none) ∧
    (∀ P, solveLinearSystem n (systemMatrix M X r) (laborVec L X w) = some P →
      (calculateSraffianPrices n M L X r w).1 = P ∧
      ((calculateSraffianPrices n M L X r w).2 = true ↔
        ∀ p ∈ P, -(1 / 10 ^ 6) < p)) := by
  unfold calculateSraffianPrices
  cases hm : solveLinearSystem n (systemMatrix M X r) (laborVec L X w) with
  | none =>
    refine ⟨by simp, ?_⟩
    intro P hP
    exact Option.noConfusion hP
  | some P =>
    constructor
    · simp only [iff_false, ne_eq, reduceCtorEq]
      intro hcontr
      have h1 := congrArg Prod.fst hcontr
      have h2 := congrArg Prod.snd hcontr
      simp only at h1 h2
      subst h1
      simp at h2
    · intro P' hP'
      obtain rfl : P = P' := by injection hP'
      refine ⟨rfl, ?_⟩
      simp [List.all_eq_true]

/-- C5: whenever the solver accepts the system (no pivot fell below the
singularity tolerance, the code's meaning of non-singular), its result
satisfies `A·x ≈ b` within `1e-6` — in exact arithmetic the residual is
exactly zero. -/
theorem C5_solve_residual {n : ℕ} {A : ℕ → ℕ → ℚ} {b : ℕ → ℚ} {xs : List ℚ}
    (h : solveLinearSystem n A b = some xs) (i : ℕ) (hi : i < n) :
    ∑ j ∈ Finset.range n, A i j * xs.getD j 0 = b i ∧
    |∑ j ∈ Finset.range n, A i j * xs.getD j 0 - b i| ≤ 1 / 10 ^ 6 := by
  have he := solveLinearSystem_exact h i hi
  refine ⟨he, ?_⟩
  rw [he, sub_self, abs_zero]
  norm_num

theorem C5_solve_residual_witness :
    solveLinearSystem 1 (fun _ _ => (2 : ℚ)) (fun _ => 4) = some [2] ∧
    (0 : ℕ) < 1 ∧
    (∑ j ∈ Finset.range 1, (fun _ _ => (2 : ℚ)) 0 j * ([(2 : ℚ)]).getD j 0 =
        (fun _ => (4 : ℚ)) 0 ∧
      |∑ j ∈ Finset.range 1, (fun _ _ => (2 : ℚ)) 0 j * ([(2 : ℚ)]).getD j 0 -
        (fun _ => (4 : ℚ)) 0| ≤ 1 / 10 ^ 6) := by
  have hsolve : solveLinearSystem 1 (fun _ _ => (2 : ℚ)) (fun _ => 4) =
      some [2] := by
    norm_num [solveLinearSystem, forwardElim, elimUpTo, gaussStep, pivotRow,
      swapRows, elimBelow, backSubAux, dotIdx, augOf, tol, jsAbs, List.range']
  exact ⟨hsolve, Nat.zero_lt_one, C5_solve_residual hsolve 0 Nat.zero_lt_one⟩

/-- C6: the solver returns the explicit no-solution outcome exactly when some
elimination step's selected pivot has magnitude below `1e-10`; in particular
a matrix with an all-zero row yields `none` for every right-hand side. -/
theorem C6_singularity (n : ℕ) (A : ℕ → ℕ → ℚ) (b : ℕ → ℚ) :
    (solveLinearSystem n A b = none ↔
      ∃ k, k < n ∧ ∃ mid, elimUpTo n (augOf n A b) k = some mid ∧
        jsAbs (mid (pivotRow mid k n) k) < tol) ∧
    (∀ r, r < n → (∀ j, j < n → A r j = 0) →
      solveLinearSystem n A b = none) := by
  constructor
  · rw [solveLinearSystem_eq_none_iff,
      show forwardElim n (augOf n A b) = elimUpTo n (augOf n A b) n from rfl]
    exact elimUpTo_eq_none_iff n
  · intro r hr hz
    exact solve_zeroRow b hr hz

theorem C6_singularity_witness :
    (1 : ℕ) < 2 ∧
    (∀ j, j < 2 → (fun i _ => if i = 0 then (1 : ℚ) else 0) 1 j = 0) ∧
    solveLinearSystem 2 (fun i _ => if i = 0 then (1 : ℚ) else 0)
      (fun _ => 5) = none :=
  ⟨by norm_num, fun j _ => by norm_num,
    (C6_singularity 2 (fun i _ => if i = 0 then (1 : ℚ) else 0)
      (fun _ => 5)).2 1 (by norm_num) (fun j _ => by norm_num)⟩

/-- C10: for the empty system (`n = 0`) the solver returns the empty solution
(not `none`), the vacuous positivity check passes, and `sraffianPrices`
returns the empty vector flagged valid — the same empty prices as in the
singular outcome but with the opposite flag. -/
theorem C10_empty_system (M : ℕ → ℕ → ℚ) (L X : ℕ → ℚ) (r w : ℚ) :
    calculateSraffianPrices 0 M L X r w = ([], true) ∧
    solveLinearSystem 0 (systemMatrix M X r) (laborVec L X w) = some [] :=
  ⟨rfl, rfl⟩

/-- C2 (amended): for a valid price vector and a commodity whose total output
is positive, the cost-breakdown outputs are exactly the claimed formulas
`cc = Σ price·(matrix/X)`, `profit = cc·r`, `wageCost = (L/X)·w`, and they sum
exactly to the commodity's price.  (The restriction `0 < X idx` is forced:
at `X idx = 0` the unguarded wage-cost division is non-finite, and at
`X idx < 0` the breakdown's `output > 0` guard disagrees with the price
system's `=== 0` guard.) -/
theorem C2_cost_breakdown {n : ℕ} {M : ℕ → ℕ → ℚ} {L X : ℕ → ℚ}
    {r w : ℚ} {P : List ℚ} {idx : ℕ}
    (h : calculateSraffianPrices n M L X r w = (P, true))
    (hidx : idx < n) (hX : 0 < X idx) :
    getCostBreakdown n M L X P r w idx =
      some { constantCapitalValue :=
               ∑ i ∈ Finset.range n, P.getD i 0 * (M i idx / X idx)
             profit :=
               (∑ i ∈ Finset.range n, P.getD i 0 * (M i idx / X idx)) * r
             wageCost := some (L idx / X idx * w)
             price := P.getD idx 0 } ∧
    (∑ i ∈ Finset.range n, P.getD i 0 * (M i idx / X idx)) +
      (∑ i ∈ Finset.range n, P.getD i 0 * (M i idx / X idx)) * r +
      L idx / X idx * w = P.getD idx 0 := by
  have hXne : X idx ≠ 0 := ne_of_gt hX
  have hsolve := solver_of_valid h
  have hlen : P.length = n := solveLinearSystem_length hsolve
  have hplen : ¬ P.length = 0 := by omega
  constructor
  · unfold getCostBreakdown
    rw [if_neg hplen]
    have hcc : ∑ i ∈ Finset.range n,
        P.getD i 0 * (if 0 < X idx then M i idx / X idx else 0) =
        ∑ i ∈ Finset.range n, P.getD i 0 * (M i idx / X idx) :=
      Finset.sum_congr rfl fun i _ => by rw [if_pos hX]
    have hwage : (jsDiv (L idx) (X idx)).map (· * w) =
        some (L idx / X idx * w) := by
      unfold jsDiv
      rw [if_neg hXne]
      rfl
    rw [hcc, hwage]
  · have heq := price_equation hsolve hidx
    have hcoeff : ∑ i ∈ Finset.range n, coeffA M X i idx * P.getD i 0 =
        ∑ i ∈ Finset.range n, P.getD i 0 * (M i idx / X idx) :=
      Finset.sum_congr rfl fun i _ => by
        unfold coeffA
        rw [if_neg hXne]
        ring
    have hlab : laborVec L X w idx = L idx / X idx * w := by
      unfold laborVec
      rw [if_neg hXne]
    rw [hcoeff, hlab] at heq
    linarith

theorem C2_cost_breakdown_witness :
    calculateSraffianPrices 1 (fun _ _ => (0 : ℚ)) (fun _ => 1) (fun _ => 1)
      0 1 = ([1], true) ∧
    (0 : ℕ) < 1 ∧ (0 : ℚ) < (fun _ => (1 : ℚ)) 0 ∧
    (getCostBreakdown 1 (fun _ _ => (0 : ℚ)) (fun _ => 1) (fun _ => 1)
        [1] 0 1 0 =
      some { constantCapitalValue :=
               ∑ i ∈ Finset.range 1,
                 ([(1 : ℚ)]).getD i 0 * ((fun _ _ => (0 : ℚ)) i 0 / (fun _ => (1 : ℚ)) 0)
             profit :=
               (∑ i ∈ Finset.range 1,
                 ([(1 : ℚ)]).getD i 0 * ((fun _ _ => (0 : ℚ)) i 0 / (fun _ => (1 : ℚ)) 0)) * 0
             wageCost := some ((fun _ => (1 : ℚ)) 0 / (fun _ => (1 : ℚ)) 0 * 1)
             price := ([(1 : ℚ)]).getD 0 0 } ∧
      (∑ i ∈ Finset.range 1,
          ([(1 : ℚ)]).getD i 0 * ((fun _ _ => (0 : ℚ)) i 0 / (fun _ => (1 : ℚ)) 0)) +
        (∑ i ∈ Finset.range 1,
          ([(1 : ℚ)]).getD i 0 * ((fun _ _ => (0 : ℚ)) i 0 / (fun _ => (1 : ℚ)) 0)) * 0 +
        (fun _ => (1 : ℚ)) 0 / (fun _ => (1 : ℚ)) 0 * 1 = ([(1 : ℚ)]).getD 0 0) := by
  have hvalid : calculateSraffianPrices 1 (fun _ _ => (0 : ℚ)) (fun _ => 1)
      (fun _ => 1) 0 1 = ([1], true) := by
    norm_num [calculateSraffianPrices, solveLinearSystem, forwardElim, elimUpTo,
      gaussStep, pivotRow, swapRows, elimBelow, backSubAux, dotIdx, augOf,
      systemMatrix, coeffA, laborVec, tol, jsAbs, List.range']
  exact ⟨hvalid, Nat.zero_lt_one, one_pos,
    C2_cost_breakdown hvalid Nat.zero_lt_one one_pos⟩

/-- C2 is false as stated, at two tolerated inputs.  With a zero total output
(left conjunct) the prices are valid but the breakdown's wage cost is the
non-finite `Infinity` (modelled `none`), so no finite sum approximates the
price.  With a negative total output (right conjunct) every quantity is
finite, the prices are valid, yet the breakdown sums to `-1` against a price
of `1` — far beyond any floating tolerance. -/
theorem C2_cost_breakdown_counterexample :
    (calculateSraffianPrices 1 (fun _ _ => (0 : ℚ)) (fun _ => 1) (fun _ => 0)
        0 1 = ([0], true) ∧
      getCostBreakdown 1 (fun _ _ => (0 : ℚ)) (fun _ => 1) (fun _ => 0)
        [0] 0 1 0 =
        some { constantCapitalValue := 0, profit := 0, wageCost := none,
               price := 0 }) ∧
    (calculateSraffianPrices 1 (fun _ _ => (-2 : ℚ)) (fun _ => 1)
        (fun _ => -1) 0 1 = ([1], true) ∧
      getCostBreakdown 1 (fun _ _ => (-2 : ℚ)) (fun _ => 1) (fun _ => -1)
        [1] 0 1 0 =
        some { constantCapitalValue := 0, profit := 0, wageCost := some (-1),
               price := 1 } ∧
      ¬ |(0 : ℚ) + 0 + (-1) - 1| ≤ 1 / 10 ^ 6) := by
  refine ⟨⟨?_, ?_⟩, ?_, ?_, ?_⟩
  · norm_num [calculateSraffianPrices, solveLinearSystem, forwardElim, elimUpTo,
      gaussStep, pivotRow, swapRows, elimBelow, backSubAux, dotIdx, augOf,
      systemMatrix, coeffA, laborVec, tol, jsAbs, List.range']
  · norm_num [getCostBreakdown, jsDiv]
  · norm_num [calculateSraffianPrices, solveLinearSystem, forwardElim, elimUpTo,
      gaussStep, pivotRow, swapRows, elimBelow, backSubAux, dotIdx, augOf,
      systemMatrix, coeffA, laborVec, tol, jsAbs, List.range']
  · norm_num [getCostBreakdown, jsDiv]
  · norm_num

/-- C8 (amended): the coefficient matrix and the unit-labor vector define the
division by a zero total output away as `0`, and so does the breakdown's
constant capital (its `output > 0` guard); but the breakdown's wage cost is
unguarded and is the non-finite JS value (modelled `none`) when the
commodity's total output is `0`. -/
theorem C8_zero_output (n : ℕ) (M : ℕ → ℕ → ℚ) (L X : ℕ → ℚ)
    (prices : List ℚ) (r w : ℚ) (i j idx : ℕ)
    (hXj : X j = 0) (hXidx : X idx = 0) (hp : prices.length ≠ 0) :
    coeffA M X i j = 0 ∧ laborVec L X w j = 0 ∧
    getCostBreakdown n M L X prices r w idx =
      some { constantCapitalValue := 0, profit := 0, wageCost := none,
             price := prices.getD idx 0 } := by
  refine ⟨by unfold coeffA; rw [if_pos hXj],
    by unfold laborVec; rw [if_pos hXj], ?_⟩
  unfold getCostBreakdown
  rw [if_neg hp]
  have hcc : ∑ k ∈ Finset.range n,
      prices.getD k 0 * (if 0 < X idx then M k idx / X idx else 0) = 0 :=
    Finset.sum_eq_zero fun k _ => by
      rw [if_neg (by rw [hXidx]; exact lt_irrefl 0), mul_zero]
  have hwage : (jsDiv (L idx) (X idx)).map (· * w) = none := by
    unfold jsDiv
    rw [if_pos hXidx]
    rfl
  rw [hcc, hwage]
  simp

theorem C8_zero_output_witness :
    (fun _ => (0 : ℚ)) 1 = 0 ∧ (fun _ => (0 : ℚ)) 0 = 0 ∧
    ([(3 : ℚ)]).length ≠ 0 ∧
    (coeffA (fun _ _ => (5 : ℚ)) (fun _ => 0) 0 1 = 0 ∧
      laborVec (fun _ => (2 : ℚ)) (fun _ => 0) 1 1 = 0 ∧
      getCostBreakdown 1 (fun _ _ => (5 : ℚ)) (fun _ => 2) (fun _ => 0)
        [3] 1 1 0 =
        some { constantCapitalValue := 0, profit := 0, wageCost := none,
               price := ([(3 : ℚ)]).getD 0 0 }) :=
  ⟨rfl, rfl, by simp,
    C8_zero_output 1 (fun _ _ => (5 : ℚ)) (fun _ => 2) (fun _ => 0) [3] 1 1
      0 1 0 rfl rfl (by simp)⟩

/-- C8 is false as stated for the cost breakdown's wage cost: at a zero total
output the division `laborInput / totalOutput` is not defined away as `0` —
it is the non-finite JS value, modelled `none`, which is not the finite `0`
the claim requires. -/
theorem C8_zero_output_counterexample :
    getCostBreakdown 1 (fun _ _ => (0 : ℚ)) (fun _ => 3) (fun _ => 0)
      [1] 0 1 0 =
      some { constantCapitalValue := 0, profit := 0, wageCost := none,
             price := 1 } ∧
    (none : Option ℚ) ≠ some 0 :=
  ⟨by norm_num [getCostBreakdown, jsDiv], by simp⟩

/-- C9 (amended): the aggregate shares are the two totals divided by the
guarded denominator (`netProduct`, replaced by `1` when it is exactly `0`)
times 100, so they sum to 100% whenever `netProduct ≠ 0`; when
`netProduct = 0` the shares read `100·totalWages` and `100·totalProfits`
(zero only when each term vanishes individually). -/
theorem C9_distribution (n : ℕ) (M : ℕ → ℕ → ℚ) (L X : ℕ → ℚ)
    (prices : List ℚ) (r w : ℚ) (hp : prices.length ≠ 0) :
    ∃ agg, aggregates n M L X prices r w = some agg ∧
      agg.totalWages = (∑ idx ∈ Finset.range n, w * L idx) ∧
      agg.totalCapital =
        (∑ j ∈ Finset.range n, ∑ i ∈ Finset.range n,
          prices.getD i 0 * M i j) ∧
      agg.totalProfits = agg.totalCapital * r ∧
      agg.netProduct = agg.totalWages + agg.totalProfits ∧
      agg.wageShare = agg.totalWages /
        (if agg.netProduct = 0 then 1 else agg.netProduct) * 100 ∧
      agg.profitShare = agg.totalProfits /
        (if agg.netProduct = 0 then 1 else agg.netProduct) * 100 ∧
      (agg.netProduct ≠ 0 → agg.wageShare + agg.profitShare = 100) ∧
      (agg.netProduct = 0 → agg.wageShare = agg.totalWages * 100 ∧
        agg.profitShare = agg.totalProfits * 100) := by
  unfold aggregates
  rw [if_neg hp]
  set W := ∑ idx ∈ Finset.range n, w * L idx with hW
  set C := ∑ j ∈ Finset.range n, ∑ i ∈ Finset.range n,
    prices.getD i 0 * M i j with hC
  refine ⟨_, rfl, rfl, rfl, rfl, rfl, rfl, rfl, ?_, ?_⟩
  · intro hnet
    simp only at hnet ⊢
    rw [if_neg hnet]
    field_simp
    ring
  · intro hnet
    simp only at hnet ⊢
    rw [if_pos hnet]
    constructor <;> simp [div_one]

theorem C9_distribution_witness :
    ([(2 : ℚ)]).length ≠ 0 ∧
    ∃ agg, aggregates 1 (fun _ _ => (1 : ℚ)) (fun _ => 1) (fun _ => 1)
        [2] 1 1 = some agg ∧
      agg.totalWages = (∑ idx ∈ Finset.range 1, (1 : ℚ) * (fun _ => (1 : ℚ)) idx) ∧
      agg.totalCapital =
        (∑ j ∈ Finset.range 1, ∑ i ∈ Finset.range 1,
          ([(2 : ℚ)]).getD i 0 * (fun _ _ => (1 : ℚ)) i j) ∧
      agg.totalProfits = agg.totalCapital * 1 ∧
      agg.netProduct = agg.totalWages + agg.totalProfits ∧
      agg.wageShare = agg.totalWages /
        (if agg.netProduct = 0 then 1 else agg.netProduct) * 100 ∧
      agg.profitShare = agg.totalProfits /
        (if agg.netProduct = 0 then 1 else agg.netProduct) * 100 ∧
      (agg.netProduct ≠ 0 → agg.wageShare + agg.profitShare = 100) ∧
      (agg.netProduct = 0 → agg.wageShare = agg.totalWages * 100 ∧
        agg.profitShare = agg.totalProfits * 100) :=
  ⟨by simp,
    C9_distribution 1 (fun _ _ => (1 : ℚ)) (fun _ => 1) (fun _ => 1) [2] 1 1
      (by simp)⟩

/-- C9 is false in its zero-net-product clause: at this input the prices are
computed (`[-1]`, flagged invalid), `netProduct = 0`, the denominator is
replaced by 1 — but the shares read 100% and −100%, not 0. -/
theorem C9_distribution_counterexample :
    calculateSraffianPrices 1 (fun _ _ => (1 : ℚ)) (fun _ => 1) (fun _ => 1)
      1 1 = ([-1], false) ∧
    aggregates 1 (fun _ _ => (1 : ℚ)) (fun _ => 1) (fun _ => 1) [-1] 1 1 =
      some { totalWages := 1, totalProfits := -1, netProduct := 0,
             totalCapital := -1, wageShare := 100, profitShare := -100 } ∧
    (100 : ℚ) ≠ 0 := by
  refine ⟨?_, ?_, by norm_num⟩
  · norm_num [calculateSraffianPrices, solveLinearSystem, forwardElim, elimUpTo,
      gaussStep, pivotRow, swapRows, elimBelow, backSubAux, dotIdx, augOf,
      systemMatrix, coeffA, laborVec, tol, jsAbs, List.range']
  · norm_num [aggregates]

theorem C3_price_outcome_witness :
    solveLinearSystem 1 (systemMatrix (fun _ _ => (0 : ℚ)) (fun _ => 1) 0)
      (laborVec (fun _ => (1 : ℚ)) (fun _ => 1) 1) = some [1] ∧
    ((calculateSraffianPrices 1 (fun _ _ => (0 : ℚ)) (fun _ => 1)
        (fun _ => 1) 0 1).1 = [1] ∧
      ((calculateSraffianPrices 1 (fun _ _ => (0 : ℚ)) (fun _ => 1)
          (fun _ => 1) 0 1).2 = true ↔
        ∀ p ∈ [(1 : ℚ)], -(1 / 10 ^ 6) < p)) := by
  have hsolve : solveLinearSystem 1
      (systemMatrix (fun _ _ => (0 : ℚ)) (fun _ => 1) 0)
      (laborVec (fun _ => (1 : ℚ)) (fun _ => 1) 1) = some [1] := by
    norm_num [solveLinearSystem, forwardElim, elimUpTo, gaussStep, pivotRow,
      swapRows, elimBelow, backSubAux, dotIdx, augOf, systemMatrix, coeffA,
      laborVec, tol, jsAbs, List.range']
  exact ⟨hsolve,
    (C3_price_outcome 1 (fun _ _ => (0 : ℚ)) (fun _ => 1) (fun _ => 1) 0 1).2
      [1] hsolve⟩

/-! ## Correspondence of the eigenvalue estimator with its specification -/

/-- A loop vector of the source embedding (total on `ℕ`) agrees with a spec
vector (on `Fin n`) on all meaningful indices. -/
def eigRel (n : ℕ) (v : ℕ → ℝ) (u : EuclideanSpace ℝ (Fin n)) : Prop :=
  ∀ i : Fin n, v i.1 = u i

theorem matVec_rel {n : ℕ} (A : ℕ → ℕ → ℝ) {v : ℕ → ℝ}
    {u : EuclideanSpace ℝ (Fin n)} (h : eigRel n v u) (i : Fin n) :
    matVec n A v i.1 =
      (Matrix.of fun a b : Fin n => A a.1 b.1).mulVec u i := by
  unfold matVec Matrix.mulVec Matrix.dotProduct
  rw [← Fin.sum_univ_eq_sum_range (fun j => A i.1 j * v j) n]
  refine Finset.sum_congr rfl fun j _ => ?_
  simp only [Matrix.of_apply]
  rw [h j]

theorem sumSq_rel {n : ℕ} {w : ℕ → ℝ} {w' : EuclideanSpace ℝ (Fin n)}
    (h : ∀ i : Fin n, w i.1 = w' i) :
    Real.sqrt (sumSq n w) = ‖w'‖ := by
  rw [EuclideanSpace.norm_eq]
  congr 1
  unfold sumSq
  rw [← Fin.sum_univ_eq_sum_range (fun i => w i ^ 2) n]
  exact Finset.sum_congr rfl fun i _ => by
    rw [h i, Real.norm_eq_abs, sq_abs]

theorem powerStep_rel {n : ℕ} (A : ℕ → ℕ → ℝ) {v : ℕ → ℝ}
    {u : EuclideanSpace ℝ (Fin n)} (h : eigRel n v u) :
    (powerStep n A v = none ∧
      specEigenStep (Matrix.of fun a b : Fin n => A a.1 b.1) u = none) ∨
    (∃ v' u', powerStep n A v = some v' ∧
      specEigenStep (Matrix.of fun a b : Fin n => A a.1 b.1) u = some u' ∧
      eigRel n v' u') := by
  set w' : EuclideanSpace ℝ (Fin n) :=
    (Matrix.of fun a b : Fin n => A a.1 b.1).mulVec u with hw'
  have hw : ∀ i : Fin n, matVec n A v i.1 = w' i := fun i => matVec_rel A h i
  have hnorm : Real.sqrt (sumSq n (matVec n A v)) = ‖w'‖ := sumSq_rel hw
  unfold powerStep specEigenStep
  simp only
  rw [hnorm]
  by_cases hg : ‖w'‖ < 1 / 10 ^ 12
  · left
    rw [if_pos hg, if_pos hg]
    exact ⟨rfl, rfl⟩
  · right
    refine ⟨_, _, if_neg hg, if_neg hg, ?_⟩
    intro i
    simp only [PiLp.smul_apply, smul_eq_mul]
    rw [hw i, hw', div_eq_inv_mul]

theorem powerIterate_rel {n : ℕ} {A : ℕ → ℕ → ℝ} :
    ∀ (k : ℕ) {v : ℕ → ℝ} {u : EuclideanSpace ℝ (Fin n)}, eigRel n v u →
      (powerIterate n A k v = none ∧
        specEigenIterate (Matrix.of fun a b : Fin n => A a.1 b.1) k u = none) ∨
      (∃ v' u', powerIterate n A k v = some v' ∧
        specEigenIterate (Matrix.of fun a b : Fin n => A a.1 b.1) k u =
          some u' ∧ eigRel n v' u') := by
  intro k
  induction k with
  | zero => intro v u h; exact Or.inr ⟨v, u, rfl, rfl, h⟩
  | succ k ih =>
    intro v u h
    rcases powerStep_rel A h with ⟨ha, hb⟩ | ⟨v', u', ha, hb, hrel⟩
    · left
      constructor <;> simp [powerIterate, specEigenIterate, ha, hb]
    · have hstep : powerIterate n A (k + 1) v = powerIterate n A k v' := by
        simp [powerIterate, ha]
      have hstep' : specEigenIterate (Matrix.of fun a b : Fin n => A a.1 b.1)
          (k + 1) u =
          specEigenIterate (Matrix.of fun a b : Fin n => A a.1 b.1) k u' := by
        simp [specEigenIterate, hb]
      rw [hstep, hstep']
      exact ih hrel

/-- C7: the source's `getDominantEigenvalue` computes exactly the algorithm
stated in the spec — `0` for `n = 0`; start at the uniform `1/√n` vector; run
exactly 1000 iterations of `w = A·v`, early-returning `0` when the Euclidean
norm of `w` falls below `1e-12` and normalizing `v = w/norm` otherwise; after
the budget, return the Rayleigh quotient `vᵗ·A·v` with no denominator. -/
theorem C7_dominant_eigenvalue (n : ℕ) (A : ℕ → ℕ → ℝ) :
    getDominantEigenvalue n A =
      dominantEigenvalueSpec n (Matrix.of fun a b : Fin n => A a.1 b.1) := by
  unfold getDominantEigenvalue dominantEigenvalueSpec
  by_cases hn : n = 0
  · rw [if_pos hn, if_pos hn]
  · rw [if_neg hn, if_neg hn]
    have h0 : eigRel n (fun _ => 1 / Real.sqrt n)
        (fun _ => 1 / Real.sqrt n) := fun _ => rfl
    rcases powerIterate_rel 1000 h0 with ⟨ha, hb⟩ | ⟨v, u, ha, hb, hrel⟩
    · rw [ha, hb]
    · rw [ha, hb]
      show rayleigh n A v = Matrix.dotProduct u
        ((Matrix.of fun a b : Fin n => A a.1 b.1).mulVec u)
      unfold rayleigh Matrix.dotProduct
      rw [← Fin.sum_univ_eq_sum_range (fun i => v i * matVec n A v i) n]
      refine Finset.sum_congr rfl fun i _ => ?_
      rw [hrel i, matVec_rel A hrel i]

/-- C4: `calculateMaxProfitRate` builds the coefficient matrix
`A[i][j] = M[i][j]/X[j]` (`0` at zero output), takes the dominant eigenvalue
`λ`, and totally returns the capped sentinel `100.0` whenever `λ ≤ 1e-9`
(the degenerate case cannot fail) and `1/λ − 1` otherwise. -/
theorem C4_max_profit_rate (n : ℕ) (M : ℕ → ℕ → ℝ) (X : ℕ → ℝ) :
    calculateMaxProfitRate n M X =
      if getDominantEigenvalue n
          (fun i j => if X j = 0 then 0 else M i j / X j) ≤ 1 / 10 ^ 9
      then 100
      else 1 / getDominantEigenvalue n
          (fun i j => if X j = 0 then 0 else M i j / X j) - 1 := rfl

end Sraffa
